import Mathlib

set_option maxRecDepth 16000

/-
Verification of ai_tool_poster.py.

This file gives a shallow embedding of the script ai_tool_poster.py:
the CSV data-source reader (read_ai_tools), the selector
(select_next_tool), the message composer (compose_post, including a
faithful model of the CPython textwrap.shorten call it makes), the card
renderer (generate_image) and the publisher (post_to_x).  Python strings
are modelled as Lean String / List Char (both count Unicode scalar
values, as Python len does); Python None is modelled with Option;
raising is modelled with Except; console output and network calls are
modelled as an explicit event trace.
-/

/-- Exception values raised by the modelled code paths. -/
inductive PyErr where
  | fileNotFound (msg : String)
  | valueError (msg : String)
  | httpError (status : Nat)
  deriving DecidableEq

/- ===== Python core string semantics ===== -/

/-- Python str.split / str.strip whitespace: characters with the Unicode
whitespace property, as hardcoded in CPython (Py_UNICODE_ISSPACE). -/
def pyIsWs (c : Char) : Bool :=
  decide ((0x9 ≤ c.toNat ∧ c.toNat ≤ 0xd) ∨ (0x1c ≤ c.toNat ∧ c.toNat ≤ 0x1f) ∨
    c.toNat = 0x20 ∨ c.toNat = 0x85 ∨ c.toNat = 0xa0 ∨ c.toNat = 0x1680 ∨
    (0x2000 ≤ c.toNat ∧ c.toNat ≤ 0x200a) ∨ c.toNat = 0x2028 ∨ c.toNat = 0x2029 ∨
    c.toNat = 0x202f ∨ c.toNat = 0x205f ∨ c.toNat = 0x3000)

/-- The textwrap module restricts its own whitespace class to US-ASCII:
the string of characters tab, newline, vertical tab, form feed,
carriage return, space. -/
def asciiWs (c : Char) : Bool :=
  decide ((0x9 ≤ c.toNat ∧ c.toNat ≤ 0xd) ∨ c.toNat = 0x20)

/-- Python str.strip with no argument: drop Unicode whitespace from both ends. -/
def pyStripL (l : List Char) : List Char :=
  ((l.dropWhile pyIsWs).reverse.dropWhile pyIsWs).reverse

/-- Python str.rstrip with no argument. -/
def pyRstripL (l : List Char) : List Char :=
  (l.reverse.dropWhile pyIsWs).reverse

/-- Python str.split with no argument: maximal runs of non-whitespace,
with empty results dropped.  Implemented with a fuel argument; the fuel
used by pySplitL is always sufficient. -/
def pySplitGo : Nat → List Char → List (List Char)
  | 0, _ => []
  | fuel + 1, l =>
    match l.dropWhile pyIsWs with
    | [] => []
    | c :: cs =>
      ((c :: cs).takeWhile (fun a => !pyIsWs a)) ::
        pySplitGo fuel ((c :: cs).dropWhile (fun a => !pyIsWs a))

def pySplitL (l : List Char) : List (List Char) := pySplitGo (l.length + 1) l

/-- Python truthiness of an optional string (None and the empty string
are falsy). -/
def pyTruthyOptStr (v : Option String) : Bool :=
  match v with
  | none => false
  | some s => s ≠ ""

/- ===== Data Source Reader: read_ai_tools ===== -/

/-- A value held in a csv.DictReader row: a string cell, or Python None
when the header has more columns than the row has cells (restval). -/
abbrev PyVal := Option String

/-- A csv.DictReader row, as an association list keyed by the header. -/
abbrev PyRow := List (String × PyVal)

/-- The dictionary csv.DictReader builds for one data row:
dict(zip(fieldnames, row)), with fieldnames missing a cell mapped to the
restval None.  Cells beyond the header go under the non-string restkey
and are not observable through string lookups, so they are dropped. -/
def csvDictRow (header : List String) (cells : List String) : PyRow :=
  header.zip (cells.map some ++ List.replicate (header.length - cells.length) (none : PyVal))

/-- Python dict lookup (d[k] present test / d.get): later duplicate keys
overwrite earlier ones, hence the reversed search. -/
def pyDictGet (row : PyRow) (k : String) : Option PyVal :=
  (row.reverse.find? (fun p => p.1 = k)).map (fun p => p.2)

/-- Python row.get(k) with no default: None when the key is absent. -/
def pyRowGet (row : PyRow) (k : String) : PyVal :=
  (pyDictGet row k).getD none

/-- Python row.get(k, dflt). -/
def pyRowGetD (row : PyRow) (k : String) (dflt : PyVal) : PyVal :=
  (pyDictGet row k).getD dflt

/-- The records a csv file yields: DictReader skips fully empty rows,
and read_ai_tools keeps a row only when row.get("name") is truthy. -/
def validRecords (header : List String) (dataRows : List (List String)) : List PyRow :=
  ((dataRows.filter (fun r => r ≠ [])).map (csvDictRow header)).filter
    (fun r => pyTruthyOptStr (pyRowGet r "name"))

/-- Model of read_ai_tools.  The file is modelled as its parsed rows
(header first); pathExists models os.path.exists(csv_path).  The loop
body (skip rows whose name field is falsy, append the rest in order) is
transliterated as a fold. -/
def read_ai_tools (pathExists : Bool) (fileRows : List (List String)) :
    Except PyErr (List PyRow) :=
  if !pathExists then .error (.fileNotFound "Cannot find tools list")
  else
    let tools :=
      match fileRows with
      | [] => []
      | header :: dataRows =>
        (dataRows.filter (fun r => r ≠ [])).foldl
          (fun acc cells =>
            let row := csvDictRow header cells
            if pyTruthyOptStr (pyRowGet row "name") then acc ++ [row] else acc)
          []
    if tools = [] then .error (.valueError "No tools found in CSV file")
    else .ok tools

/-- Model of select_next_tool: the first record.  Python indexing raises
on an empty list, modelled with Option. -/
def select_next_tool (tools : List PyRow) : Option PyRow := tools.head?

/- ===== Publisher: post_to_x ===== -/

/-- An HTTP response as the script observes it: the status code, the
media_id_string field of the parsed upload JSON (None when absent), and
the response body text. -/
structure HttpResponse where
  status : Nat
  mediaIdString : Option String
  body : String
  deriving DecidableEq

/-- Observable effects of post_to_x: console prints and outbound POSTs. -/
inductive NetEvent where
  | printed (s : String)
  | httpPosted (url : String)
  deriving DecidableEq

def uploadUrl : String := "https://upload.twitter.com/1.1/media/upload.json"

def tweetUrl : String := "https://api.twitter.com/2/tweets"

/-- Model of requests raise_for_status: raises HTTPError exactly for
status codes in [400, 600). -/
def raiseForStatus (r : HttpResponse) : Except PyErr Unit :=
  if 400 ≤ r.status ∧ r.status < 600 then .error (.httpError r.status) else .ok ()

/-- Model of post_to_x.  The four credential environment reads are
passed in as optional strings (None when the variable is unset); the two
network responses are passed in as data.  The result is the ordered
event trace together with the normal or exceptional outcome. -/
def post_to_x (apiKey apiSecret accessToken accessSecret : Option String)
    (uploadResp tweetResp : HttpResponse) (statusText imagePath : String) :
    List NetEvent × Except PyErr Unit :=
  if !([apiKey, apiSecret, accessToken, accessSecret].all pyTruthyOptStr) then
    ([.printed "Missing Twitter API credentials. Printing instead:",
      .printed statusText,
      .printed ("(Image saved to " ++ imagePath ++ ")")], .ok ())
  else
    let ev1 : List NetEvent := [.httpPosted uploadUrl]
    match raiseForStatus uploadResp with
    | .error e => (ev1, .error e)
    | .ok _ =>
      let ev2 := ev1 ++ [.httpPosted tweetUrl]
      if 400 ≤ tweetResp.status then
        (ev2 ++ [.printed ("Failed to post tweet: " ++ toString tweetResp.status ++ " " ++ tweetResp.body)],
         .ok ())
      else
        (ev2 ++ [.printed ("Posted tweet successfully: " ++ tweetResp.body)], .ok ())

/- ===== Card Renderer: generate_image ===== -/

/-- A font as resolved by generate_image: either a truetype font at a
point size, or the Pillow built-in default font. -/
inductive CardFont where
  | truetype (path : String) (size : Nat)
  | defaultFont
  deriving DecidableEq

/-- The environment generate_image probes for fonts: the AI_TOOL_FONT
variable, whether that path exists, and whether loading the font file
raises (any exception at all inside the try block). -/
structure FontEnv where
  fontPath : Option String
  fontPathExists : Bool
  loadRaises : Bool

/-- The try block body: load the custom font at sizes 60/36/28 when the
environment names an existing file, otherwise the default font; any
exception is propagated to the handler. -/
def tryLoadFonts (env : FontEnv) : Except PyErr (CardFont × CardFont × CardFont) :=
  if pyTruthyOptStr env.fontPath ∧ env.fontPathExists then
    if env.loadRaises then .error (.valueError "font load failed")
    else
      match env.fontPath with
      | some p => .ok (.truetype p 60, .truetype p 36, .truetype p 28)
      | none => .ok (.defaultFont, .defaultFont, .defaultFont)
  else .ok (.defaultFont, .defaultFont, .defaultFont)

/-- The try/except around font loading: any failure falls back to the
built-in default font for all three lines. -/
def loadFonts (env : FontEnv) : CardFont × CardFont × CardFont :=
  match tryLoadFonts env with
  | .ok fonts => fonts
  | .error _ => (.defaultFont, .defaultFont, .defaultFont)

/-- The rendered card artifact: canvas size and colors, the resolved
fonts, and the three centered text lines with their y positions. -/
structure CardImage where
  width : Nat
  height : Nat
  bgColor : Nat × Nat × Nat
  textColor : Nat × Nat × Nat
  titleFont : CardFont
  subtitleFont : CardFont
  urlFont : CardFont
  lines : List (String × Nat)

/-- Model of generate_image.  Rendering is total: font resolution never
raises, and the canvas is fixed at 1200 by 675.  The y positions are
int(height * 0.25), int(height * 0.45), int(height * 0.65); for
height = 675 the float computation truncates to 168, 303 and 438,
which the Nat expressions below also yield. -/
def generate_image (name tagline url : String) (env : FontEnv) : CardImage :=
  let fonts := loadFonts env
  { width := 1200
    height := 675
    bgColor := (255, 255, 255)
    textColor := (30, 30, 30)
    titleFont := fonts.1
    subtitleFont := fonts.2.1
    urlFont := fonts.2.2
    lines := [(name, 675 * 25 / 100), (tagline, 675 * 45 / 100), (url, 675 * 65 / 100)] }

/- ===== textwrap.shorten, as called by compose_post =====

compose_post calls textwrap.shorten(short_desc, width=available_for_desc,
placeholder=ellipsis).  shorten builds TextWrapper(width, max_lines=1)
with the default options (expand_tabs, replace_whitespace,
break_long_words, drop_whitespace, break_on_hyphens all true,
fix_sentence_endings false, empty indents) and returns
fill(collapsed) where collapsed joins text.strip().split() with single
spaces.  The model below transliterates that call path:
_munge_whitespace (expandtabs is the identity here because the collapsed
text has no tab), the wordsep_re chunk split, and _wrap_chunks. -/

/-- Unicode word characters (regex class w).  The ASCII part is exact;
characters above ASCII are treated as word characters.  This
approximation of the Unicode tables only influences where a hyphenated
compound may be broken. -/
def pyWordChar (c : Char) : Bool :=
  c.isAlphanum || c.toNat = 0x5f || decide (0x80 ≤ c.toNat)

/-- The regex class letter of textwrap, [^ d W]: word characters that
are not digits. -/
def pyLetter (c : Char) : Bool :=
  c.isAlpha || c.toNat = 0x5f || decide (0x80 ≤ c.toNat)

/-- The regex class word_punct of textwrap: word characters and the
punctuation marks bang, double quote, apostrophe, ampersand, period,
comma, question mark. -/
def wordPunct (c : Char) : Bool :=
  pyWordChar c || c.toNat = 0x21 || c.toNat = 0x22 || c.toNat = 0x27 ||
    c.toNat = 0x26 || c.toNat = 0x2e || c.toNat = 0x2c || c.toNat = 0x3f

/-- Character at a signed offset from the current match start: offsets
below zero look into the already consumed text (held reversed). -/
def charAtOff (prevRev rest : List Char) (i : Int) : Option Char :=
  if 0 ≤ i then rest.get? i.toNat else prevRev.get? (-i - 1).toNat

def isLetterOpt (c : Option Char) : Bool :=
  match c with
  | some c => pyLetter c
  | none => false

/-- Length of the hyphen run of rest starting at index j. -/
def hyphRunAt (rest : List Char) (j : Nat) : Nat :=
  ((rest.drop j).takeWhile (fun c => c = '-')).length

/-- End condition of the lazy word alternative of wordsep_re at overall
length j (j characters consumed from rest).  The three disjuncts are the
three subalternatives of the regex: stop before whitespace or at the end
of the text; stop just after a hyphenation point (the consumed hyphen is
at j-1, the lookbehind requires letter letter hyphen or letter hyphen
letter hyphen before the stop, the lookahead requires letter, optional
hyphen, letter after it); stop before an em-dash (two or more hyphens
followed by a word character) when the last consumed character is
word punctuation. -/
def endCond (prevRev rest : List Char) (j : Nat) : Bool :=
  (decide (j = rest.length) || (match rest.get? j with | some c => asciiWs c | none => true))
  || (decide (2 ≤ j) && (rest.get? (j - 1) == some '-')
      && ((isLetterOpt (charAtOff prevRev rest ((j : Int) - 3)) &&
            isLetterOpt (charAtOff prevRev rest ((j : Int) - 2)))
          || (isLetterOpt (charAtOff prevRev rest ((j : Int) - 4)) &&
              (charAtOff prevRev rest ((j : Int) - 3) == some '-') &&
              isLetterOpt (charAtOff prevRev rest ((j : Int) - 2))))
      && (isLetterOpt (rest.get? j) &&
            (isLetterOpt (rest.get? (j + 1)) ||
             ((rest.get? (j + 1) == some '-') && isLetterOpt (rest.get? (j + 2))))))
  || ((match rest.get? (j - 1) with | some c => wordPunct c | none => false) && decide (1 ≤ j)
      && decide (2 ≤ hyphRunAt rest j)
      && (match rest.get? (j + hyphRunAt rest j) with | some c => pyWordChar c | none => false))

/-- Shortest end of the lazy word alternative: the smallest j in
[1, length] satisfying endCond.  The end-of-text disjunct holds at
j = length, so the search always succeeds for nonempty rest. -/
def findEnd (prevRev rest : List Char) : Nat :=
  (((List.range' 1 rest.length).find? (endCond prevRev rest)).getD rest.length)

/-- The em-dash alternative of wordsep_re matches at the current
position: a run of two or more hyphens preceded by word punctuation and
followed by a word character. -/
def emDashAt (prevRev rest : List Char) : Bool :=
  (match prevRev with
   | p :: _ => wordPunct p
   | [] => false) &&
    decide (2 ≤ (rest.takeWhile (fun a => a = '-')).length) &&
    (match rest.get? (rest.takeWhile (fun a => a = '-')).length with
     | some a => pyWordChar a
     | none => false)

/-- Length of the next wordsep_re match at the current position: a
whitespace run, an em-dash run, or a lazy word piece. -/
def wsChunkLen (prevRev rest : List Char) : Nat :=
  match rest with
  | [] => 0
  | c :: _ =>
    if asciiWs c then (rest.takeWhile asciiWs).length
    else if emDashAt prevRev rest then (rest.takeWhile (fun a => a = '-')).length
    else findEnd prevRev rest

/-- The wordsep_re split of the text into chunks, as a fueled scan; the
max with one makes progress explicit (wsChunkLen is positive for
nonempty rest).  The fuel used by wordsepChunks is always sufficient. -/
def wsGo : Nat → List Char → List Char → List (List Char)
  | 0, _, _ => []
  | fuel + 1, prevRev, rest =>
    match rest with
    | [] => []
    | _ :: _ =>
      let n := max 1 (wsChunkLen prevRev rest)
      rest.take n :: wsGo fuel ((rest.take n).reverse ++ prevRev) (rest.drop n)

def wordsepChunks (l : List Char) : List (List Char) := wsGo (l.length + 1) [] l

/-- Munge step of the wrapper: replace each ASCII whitespace character
by a space (expandtabs is the identity on the tab-free collapsed text). -/
def mungeWs (l : List Char) : List Char :=
  l.map (fun c => if asciiWs c then ' ' else c)

def sumLen (l : List (List Char)) : Nat := (l.map List.length).sum

/-- Greedy packing step of _wrap_chunks: take chunks onto the current
line while the accumulated length stays within the width. -/
def greedySplit (width : Nat) : Nat → List (List Char) → List (List Char) × List (List Char)
  | _, [] => ([], [])
  | curLen, c :: rest =>
    if curLen + c.length ≤ width then
      let p := greedySplit width (curLen + c.length) rest
      (c :: p.1, p.2)
    else ([], c :: rest)

/-- The cut position _handle_long_word uses for a chunk longer than the
whole width: the space left on the line, moved back to just after the
last hyphen before it when that hyphen is preceded by some non-hyphen.
When the width is below one, one character is always stripped off. -/
def longEnd (width curLen : Nat) (c : List Char) : Nat :=
  let spaceLeft := if width < 1 then 1 else width - curLen
  if spaceLeft < c.length then
    match (((c.take spaceLeft).reverse.findIdx? (fun a => a = '-')).map
        (fun i => (c.take spaceLeft).length - 1 - i)) with
    | some hyphen =>
      if 0 < hyphen ∧ (c.take hyphen).any (fun a => a ≠ '-') then hyphen + 1 else spaceLeft
    | none => spaceLeft
  else spaceLeft

/-- The break_long_words step: when the first remaining chunk is longer
than the width, split it at longEnd, put the head piece on the line and
leave the tail in place. -/
def longAdjust (width : Nat) (a b : List (List Char)) :
    List (List Char) × List (List Char) :=
  match b with
  | [] => (a, [])
  | c :: bs =>
    if width < c.length then
      (a ++ [c.take (longEnd width (sumLen a) c)], c.drop (longEnd width (sumLen a) c) :: bs)
    else (a, c :: bs)

/-- Drop the final chunk of the line when it is all whitespace
(drop_whitespace). -/
def dropTrailingWsChunk (cur : List (List Char)) : List (List Char) :=
  match cur.getLast? with
  | some c => if pyStripL c = [] then cur.dropLast else cur
  | none => cur

/-- The placeholder loop of _wrap_chunks: pop chunks from the end of the
line until the last one has visible text and the single-character
placeholder still fits; none when the line empties first.  The input is
the line reversed. -/
def popRev (width : Nat) : List (List Char) → Option (List (List Char))
  | [] => none
  | c :: rest =>
    if pyStripL c ≠ [] ∧ sumLen (c :: rest) + 1 ≤ width then some (c :: rest)
    else popRev width rest

/-- Drop the leading chunk when it is all whitespace and a line has
already been produced (the head-of-loop drop_whitespace step). -/
def dropHeadWs (lines chunks : List (List Char)) : List (List Char) :=
  match chunks with
  | c :: cs => if pyStripL c = [] ∧ lines ≠ [] then cs else chunks
  | [] => chunks

/-- Greedy packing, long-word handling and trailing-whitespace dropping
of one loop iteration: yields the current line and the remaining
chunks. -/
def wrapCore (width : Nat) (chunks1 : List (List Char)) :
    List (List Char) × List (List Char) :=
  let g := greedySplit width 0 chunks1
  let cr := longAdjust width g.1 g.2
  (dropTrailingWsChunk cr.1, cr.2)

/-- The truncation arm of _wrap_chunks for max_lines = 1: pop chunks
until the placeholder fits at a visible position, else amend the
previous line, else emit the bare placeholder. -/
def wrapTail (width : Nat) (lines cur : List (List Char)) : List (List Char) :=
  match popRev width cur.reverse with
  | some kept => lines ++ [kept.reverse.flatten ++ ['…']]
  | none =>
    match lines.getLast? with
    | some prev =>
      if (pyRstripL prev).length + 1 ≤ width then
        lines.dropLast ++ [pyRstripL prev ++ ['…']]
      else lines ++ [['…']]
    | none => lines ++ [['…']]

/-- One iteration of the while loop of _wrap_chunks, specialized to
max_lines = 1, empty indents and the default option set, with the
placeholder being the single ellipsis character.  The left summand is a
terminal result (the loop breaks), the right one is the state for the
next iteration. -/
def wrapStep (width : Nat) (lines chunks : List (List Char)) :
    (List (List Char)) ⊕ (List (List Char) × List (List Char)) :=
  let cc := wrapCore width (dropHeadWs lines chunks)
  if cc.1 = [] then .inr (lines, cc.2)
  else if (cc.2 = [] ∨ (cc.2.length = 1 ∧ pyStripL (cc.2.headD []) = [])) ∧
      sumLen cc.1 ≤ width then
    .inr (lines ++ [cc.1.flatten], cc.2)
  else .inl (wrapTail width lines cc.1)

/-- Fueled driver of the while loop.  Each iteration strictly decreases
the chunk measure (total character count plus chunk count), so the fuel
wrapChunksL passes is always sufficient; see wrapStep_measure_lt. -/
def wrapGo (width : Nat) : Nat → List (List Char) → List (List Char) → List (List Char)
  | 0, lines, _ => lines
  | fuel + 1, lines, chunks =>
    if chunks = [] then lines
    else
      match wrapStep width lines chunks with
      | .inl done => done
      | .inr lc => wrapGo width fuel lc.1 lc.2

def chunkMeasure (l : List (List Char)) : Nat := sumLen l + l.length

def wrapChunksL (width : Nat) (chunks : List (List Char)) : List (List Char) :=
  wrapGo width (chunkMeasure chunks + 1) [] chunks

/-- The fill call on the collapsed text: munge, split into chunks, wrap,
join the produced lines with newlines. -/
def fillOneLine (width : Nat) (text : List Char) : List Char :=
  List.intercalate ['\n'] (wrapChunksL width (wordsepChunks (mungeWs text)))

/-- The whitespace collapsing shorten performs first:
join text.strip().split() with single spaces. -/
def collapseWs (l : List Char) : List Char :=
  List.intercalate [' '] (pySplitL (pyStripL l))

/-- Model of textwrap.shorten(text, width, placeholder=ellipsis):
_wrap_chunks raises ValueError for width at most zero, and would raise
again if the stripped placeholder (one character) exceeded the width;
otherwise the wrap is total. -/
def pyShorten (text : String) (width : Int) : Except PyErr String :=
  let collapsed := collapseWs text.data
  if width ≤ 0 then .error (.valueError "invalid width (must be positive)")
  else if width < 1 then .error (.valueError "placeholder too large for max width")
  else .ok (String.mk (fillOneLine width.toNat collapsed))

/- ===== Message Composer: compose_post ===== -/

/-- The template with the four fields substituted (template.format). -/
def templateRender (name tagline shortDesc url : String) : String :=
  "🆕" ++ name ++ "：" ++ tagline ++ "。" ++ shortDesc ++ " 詳しくはこちら 👉 " ++ url ++
    " #AI #AIツール"

/-- The static text whose length compose_post measures: the template
with the description placeholder removed. -/
def staticText (name tagline url : String) : String :=
  "🆕" ++ name ++ "：" ++ tagline ++ "。 詳しくはこちら 👉 " ++ url ++ " #AI #AIツール"

/-- available_for_desc = 140 - len(static_text), over the integers. -/
def availableForDesc (name tagline url : String) : Int :=
  140 - (staticText name tagline url).length

/-- The description substituted into the template: the stripped
description, shortened with textwrap.shorten when it exceeds the
positive budget, and the empty string when the budget is not positive. -/
def composeShortDesc (name tagline description url : String) : Except PyErr String :=
  let sd := String.mk (pyStripL description.data)
  if 0 < availableForDesc name tagline url then
    if availableForDesc name tagline url < (sd.length : Int) then
      pyShorten sd (availableForDesc name tagline url)
    else .ok sd
  else .ok ""

/-- Model of compose_post on a record whose four fields are strings. -/
def compose_post (name tagline description url : String) : Except PyErr String := do
  let sd ← composeShortDesc name tagline description url
  pure (templateRender name tagline sd url)

/- ===== Helper lemmas ===== -/

theorem foldl_append_filter {α β : Type} (p : β → Bool) (f : α → β) (l : List α) :
    ∀ init : List β,
      l.foldl (fun acc x => if p (f x) then acc ++ [f x] else acc) init =
        init ++ (l.map f).filter p := by
  induction l with
  | nil => intro init; simp
  | cons a l ih =>
    intro init
    simp only [List.foldl_cons, List.map_cons, List.filter_cons]
    by_cases h : p (f a)
    · rw [if_pos h, ih, if_pos h]
      simp
    · rw [if_neg h, ih]
      simp [h]

/-- The records read_ai_tools accumulates for a parsed file. -/
def fileValidRecords (fileRows : List (List String)) : List PyRow :=
  match fileRows with
  | [] => []
  | header :: dataRows => validRecords header dataRows

theorem read_ai_tools_eq (pe : Bool) (rows : List (List String)) :
    read_ai_tools pe rows =
      (if !pe then .error (.fileNotFound "Cannot find tools list")
       else if fileValidRecords rows = [] then .error (.valueError "No tools found in CSV file")
       else .ok (fileValidRecords rows)) := by
  unfold read_ai_tools fileValidRecords validRecords
  cases pe with
  | false => rfl
  | true =>
    cases rows with
    | nil => rfl
    | cons header dataRows =>
      simp only [Bool.not_true, Bool.false_eq_true, if_false]
      rw [foldl_append_filter (fun r => pyTruthyOptStr (pyRowGet r "name")) (csvDictRow header)]
      simp

/- ===== Claim theorems: publisher ===== -/

/-- Claim C5: when any of the four credential environment values is
absent, post_to_x prints the composed message and the image path to
standard output and returns successfully, making no network call. -/
theorem post_to_x_local_fallback (k s t a : Option String)
    (up tw : HttpResponse) (msg img : String)
    (h : k = none ∨ s = none ∨ t = none ∨ a = none) :
    post_to_x k s t a up tw msg img =
      ([.printed "Missing Twitter API credentials. Printing instead:",
        .printed msg, .printed ("(Image saved to " ++ img ++ ")")], .ok ()) ∧
      ∀ u, NetEvent.httpPosted u ∉ (post_to_x k s t a up tw msg img).1 := by
  have hall : ([k, s, t, a].all pyTruthyOptStr) = false := by
    rcases h with h | h | h | h <;> subst h <;> simp [pyTruthyOptStr]
  refine ⟨by simp [post_to_x, hall], ?_⟩
  intro u
  simp [post_to_x, hall]

/-- Witness for post_to_x_local_fallback at a concrete input. -/
theorem post_to_x_local_fallback_witness :
    post_to_x none (some "s") (some "t") (some "a") ⟨200, none, ""⟩ ⟨200, none, ""⟩ "hello" "img.png" =
      ([.printed "Missing Twitter API credentials. Printing instead:",
        .printed "hello", .printed ("(Image saved to " ++ "img.png" ++ ")")], .ok ()) :=
  (post_to_x_local_fallback none (some "s") (some "t") (some "a")
    ⟨200, none, ""⟩ ⟨200, none, ""⟩ "hello" "img.png" (Or.inl rfl)).1

/-- Claim C6: with all four credentials present, an HTTP error status
(400 to 599) from the media upload makes post_to_x raise, and the
post-creation request is never attempted after the failed upload. -/
theorem post_to_x_upload_error_aborts (k s t a : Option String)
    (up tw : HttpResponse) (msg img : String)
    (hcred : ([k, s, t, a].all pyTruthyOptStr) = true)
    (h4 : 400 ≤ up.status) (h6 : up.status < 600) :
    (post_to_x k s t a up tw msg img).2 = .error (.httpError up.status) ∧
      (post_to_x k s t a up tw msg img).1 = [.httpPosted uploadUrl] ∧
      NetEvent.httpPosted tweetUrl ∉ (post_to_x k s t a up tw msg img).1 := by
  have hraise : raiseForStatus up = .error (.httpError up.status) := by
    simp [raiseForStatus, h4, h6]
  have hmain : post_to_x k s t a up tw msg img =
      ([.httpPosted uploadUrl], .error (.httpError up.status)) := by
    simp [post_to_x, hcred, hraise]
  refine ⟨by rw [hmain], by rw [hmain], ?_⟩
  rw [hmain]
  have : uploadUrl ≠ tweetUrl := by decide
  simp [this.symm]

/-- Witness for post_to_x_upload_error_aborts at a concrete input. -/
theorem post_to_x_upload_error_aborts_witness :
    (post_to_x (some "k") (some "s") (some "t") (some "a")
        ⟨500, none, ""⟩ ⟨200, none, ""⟩ "m" "i.png").2 = .error (.httpError 500) :=
  (post_to_x_upload_error_aborts (some "k") (some "s") (some "t") (some "a")
    ⟨500, none, ""⟩ ⟨200, none, ""⟩ "m" "i.png" (by decide) (by decide) (by decide)).1

/-- Counterexample to claim C2 as stated: during an authenticated
attempt, an HTTP error status from the media upload is not recovered:
post_to_x propagates an exception to the caller. -/
theorem post_to_x_upload_error_cex :
    (post_to_x (some "key") (some "sec") (some "tok") (some "asec")
        ⟨500, none, "err"⟩ ⟨200, none, "ok"⟩ "message" "card.png").2 =
      .error (.httpError 500) := by
  rfl

/-- Claim C2 (amended): with all credentials present and the media
upload succeeding, an HTTP status of 400 or above from post creation is
recovered: a failure diagnostic is printed and post_to_x returns
normally, with no exception. -/
theorem post_to_x_tweet_error_recovered (k s t a : Option String)
    (up tw : HttpResponse) (msg img : String)
    (hcred : ([k, s, t, a].all pyTruthyOptStr) = true)
    (hup : up.status < 400) (htw : 400 ≤ tw.status) :
    post_to_x k s t a up tw msg img =
      ([.httpPosted uploadUrl, .httpPosted tweetUrl,
        .printed ("Failed to post tweet: " ++ toString tw.status ++ " " ++ tw.body)], .ok ()) := by
  have hraise : raiseForStatus up = .ok () := by
    simp only [raiseForStatus, ite_eq_right_iff]
    omega
  simp [post_to_x, hcred, hraise, htw]

/-- Witness for post_to_x_tweet_error_recovered at a concrete input. -/
theorem post_to_x_tweet_error_recovered_witness :
    post_to_x (some "k") (some "s") (some "t") (some "a")
        ⟨200, some "123", ""⟩ ⟨403, none, "forbidden"⟩ "m" "i.png" =
      ([.httpPosted uploadUrl, .httpPosted tweetUrl,
        .printed ("Failed to post tweet: " ++ toString 403 ++ " " ++ "forbidden")], .ok ()) :=
  post_to_x_tweet_error_recovered (some "k") (some "s") (some "t") (some "a")
    ⟨200, some "123", ""⟩ ⟨403, none, "forbidden"⟩ "m" "i.png" (by decide) (by decide) (by decide)

/- ===== Claim theorems: card renderer ===== -/

/-- Claim C9: generate_image always yields a 1200 by 675 canvas, and
any font-loading failure (custom path unset, missing, or raising on
load) never raises: all three lines fall back to the default font. -/
theorem generate_image_spec (n t u : String) (env : FontEnv) :
    (generate_image n t u env).width = 1200 ∧
      (generate_image n t u env).height = 675 ∧
      ((pyTruthyOptStr env.fontPath = false ∨ env.fontPathExists = false ∨
          env.loadRaises = true) →
        (generate_image n t u env).titleFont = .defaultFont ∧
          (generate_image n t u env).subtitleFont = .defaultFont ∧
          (generate_image n t u env).urlFont = .defaultFont) := by
  refine ⟨rfl, rfl, ?_⟩
  intro h
  have hfonts : loadFonts env = (.defaultFont, .defaultFont, .defaultFont) := by
    unfold loadFonts tryLoadFonts
    rcases h with h | h | h
    · rw [if_neg]
      rintro ⟨h1, -⟩
      rw [h] at h1
      exact absurd h1 (by simp)
    · rw [if_neg]
      rintro ⟨-, h2⟩
      rw [h] at h2
      exact absurd h2 (by simp)
    · by_cases hc : pyTruthyOptStr env.fontPath = true ∧ env.fontPathExists = true
      · rw [if_pos hc, if_pos h]
      · rw [if_neg hc]
  exact ⟨by simp [generate_image, hfonts], by simp [generate_image, hfonts],
    by simp [generate_image, hfonts]⟩

/-- Witness for generate_image_spec at a concrete input (font file
present but failing to load). -/
theorem generate_image_spec_witness :
    (generate_image "Foo" "bar" "http://x.test"
        ⟨some "font.ttf", true, true⟩).width = 1200 ∧
      (generate_image "Foo" "bar" "http://x.test"
        ⟨some "font.ttf", true, true⟩).titleFont = .defaultFont := by
  have h := generate_image_spec "Foo" "bar" "http://x.test" ⟨some "font.ttf", true, true⟩
  exact ⟨h.1, (h.2.2 (Or.inr (Or.inr rfl))).1⟩

/- ===== Claim theorems: data source reader ===== -/

/-- Claim C4: read_ai_tools raises a NotFound error when the path does
not exist; otherwise it produces one record per row in order, skipping
exactly the rows whose name field is absent or empty, and raises an
EmptyData error exactly when no valid record remains. -/
theorem read_ai_tools_contract (pe : Bool) (rows : List (List String)) :
    (pe = false → read_ai_tools pe rows = .error (.fileNotFound "Cannot find tools list")) ∧
      (pe = true →
        ((read_ai_tools pe rows = .error (.valueError "No tools found in CSV file") ↔
            fileValidRecords rows = []) ∧
          (fileValidRecords rows ≠ [] → read_ai_tools pe rows = .ok (fileValidRecords rows)))) := by
  constructor
  · intro h
    subst h
    rw [read_ai_tools_eq]
    rfl
  · intro h
    subst h
    rw [read_ai_tools_eq]
    by_cases hv : fileValidRecords rows = []
    · simp [hv]
    · simp [hv]

/-- Witness for read_ai_tools_contract: the three contract branches at
concrete inputs. -/
theorem read_ai_tools_contract_witness :
    read_ai_tools false [["name"], ["Foo"]] = .error (.fileNotFound "Cannot find tools list") ∧
      read_ai_tools true [["name"], [""]] = .error (.valueError "No tools found in CSV file") ∧
      read_ai_tools true [["name"], ["Foo"]] = .ok [[("name", some "Foo")]] := by
  refine ⟨(read_ai_tools_contract false [["name"], ["Foo"]]).1 rfl, ?_, ?_⟩
  · exact ((read_ai_tools_contract true [["name"], [""]]).2 rfl).1.mpr (by rfl)
  · exact ((read_ai_tools_contract true [["name"], ["Foo"]]).2 rfl).2 (by decide)

/-- Counterexample to claim C3 as stated: a row with a name but fewer
cells than the header maps the missing optional fields to Python None,
not to the empty string. -/
theorem csv_short_row_maps_none_cex :
    read_ai_tools true [["name", "tagline", "description", "url"], ["Foo"]] =
        .ok [[("name", some "Foo"), ("tagline", none), ("description", none), ("url", none)]] ∧
      pyDictGet [("name", some "Foo"), ("tagline", none), ("description", none), ("url", none)]
          "tagline" = some none ∧
      (some (none : PyVal) ≠ some (some "")) := by
  refine ⟨by rfl, by rfl, by simp⟩

/-- Claim C3 (amended): an optional field whose column is missing from
the header is absent from the record, and the defaulted lookup the rest
of the script uses yields the empty string for it; a field whose column
exists but whose cell is missing from a short row is mapped to None
(established separately by csv_short_row_maps_none_cex). -/
theorem csv_missing_column_defaults (header cells : List String) (fld : String)
    (h : fld ∉ header) :
    pyDictGet (csvDictRow header cells) fld = none ∧
      pyRowGetD (csvDictRow header cells) fld (some "") = some "" := by
  have hfind : (csvDictRow header cells).reverse.find? (fun p => p.1 = fld) = none := by
    rw [List.find?_eq_none]
    intro p hp
    rw [List.mem_reverse] at hp
    have hmem := List.of_mem_zip hp
    simp only [decide_eq_true_eq]
    intro hpe
    exact h (hpe ▸ hmem.1)
  constructor
  · simp [pyDictGet, hfind]
  · simp [pyRowGetD, pyDictGet, hfind]

/-- Witness for csv_missing_column_defaults at a concrete input. -/
theorem csv_missing_column_defaults_witness :
    pyRowGetD (csvDictRow ["name", "url"] ["Foo", "http://x.test"]) "tagline" (some "") =
      some "" :=
  (csv_missing_column_defaults ["name", "url"] ["Foo", "http://x.test"] "tagline"
    (by decide)).2

/- ===== Claim theorems: composer basics ===== -/

theorem templateRender_length (n t sd u : String) :
    (templateRender n t sd u).length = (staticText n t u).length + sd.length := by
  have e1 : ("🆕" : String).length = 1 := by decide
  have e2 : ("：" : String).length = 1 := by decide
  have e3 : ("。" : String).length = 1 := by decide
  have e4 : (" 詳しくはこちら 👉 " : String).length = 11 := by decide
  have e5 : (" #AI #AIツール" : String).length = 11 := by decide
  have e6 : ("。 詳しくはこちら 👉 " : String).length = 12 := by decide
  simp only [templateRender, staticText, String.length_append, e1, e2, e3, e4, e5, e6]
  omega

/-- Claim C7: when the fixed template parts alone reach 140 characters,
the description placeholder resolves to the empty string. -/
theorem compose_static_overflow_empty_desc (n t d u : String)
    (h : (140 : Int) ≤ ((staticText n t u).length : Int)) :
    composeShortDesc n t d u = .ok "" ∧
      compose_post n t d u = .ok (templateRender n t "" u) := by
  have hav : ¬ (0 < availableForDesc n t u) := by
    unfold availableForDesc
    omega
  have h1 : composeShortDesc n t d u = .ok "" := by
    unfold composeShortDesc
    rw [if_neg hav]
  refine ⟨h1, ?_⟩
  unfold compose_post
  rw [h1]
  rfl

/-- Witness for compose_static_overflow_empty_desc at a concrete
record: a 115-character name makes the static text exactly 140
characters long. -/
theorem compose_static_overflow_empty_desc_witness :
    composeShortDesc (String.mk (List.replicate 115 'x')) "" "some description" "" = .ok "" :=
  (compose_static_overflow_empty_desc (String.mk (List.replicate 115 'x')) ""
    "some description" "" (by decide)).1

/-- Claim C10: compose_post is total on records whose four fields are
strings: the shortening call is reached only with a positive width, so
no branch raises and a message is always returned. -/
theorem compose_post_total (n t d u : String) :
    (∃ sd, composeShortDesc n t d u = .ok sd) ∧ ∃ s, compose_post n t d u = .ok s := by
  have h : ∃ sd, composeShortDesc n t d u = .ok sd := by
    unfold composeShortDesc
    by_cases h1 : 0 < availableForDesc n t u
    · rw [if_pos h1]
      by_cases h2 : availableForDesc n t u < ((String.mk (pyStripL d.data)).length : Int)
      · rw [if_pos h2]
        unfold pyShorten
        rw [if_neg (by omega), if_neg (by omega)]
        exact ⟨_, rfl⟩
      · rw [if_neg h2]
        exact ⟨_, rfl⟩
    · rw [if_neg h1]
      exact ⟨_, rfl⟩
  obtain ⟨sd, hsd⟩ := h
  refine ⟨⟨sd, hsd⟩, ⟨templateRender n t sd u, ?_⟩⟩
  unfold compose_post
  rw [hsd]
  rfl

/-- Counterexample to claim C1 as stated: a record whose name alone is
140 characters long yields a composed message of 165 characters. -/
theorem compose_over_140_cex :
    compose_post (String.mk (List.replicate 140 'a')) "" "" "" =
        .ok (templateRender (String.mk (List.replicate 140 'a')) "" "" "") ∧
      (templateRender (String.mk (List.replicate 140 'a')) "" "" "").length = 165 := by
  constructor
  · rfl
  · decide

/- ===== Wrap machinery lemmas ===== -/

theorem sumLen_nil : sumLen [] = 0 := rfl

theorem sumLen_cons (c : List Char) (l : List (List Char)) :
    sumLen (c :: l) = c.length + sumLen l := by
  simp [sumLen]

theorem sumLen_append (a b : List (List Char)) : sumLen (a ++ b) = sumLen a + sumLen b := by
  simp [sumLen]

theorem sumLen_reverse (l : List (List Char)) : sumLen l.reverse = sumLen l := by
  simp [sumLen, List.map_reverse, List.sum_reverse]

theorem flatten_length (l : List (List Char)) : l.flatten.length = sumLen l := by
  simp [sumLen, List.length_flatten]

theorem dropHeadWs_nil_lines (chunks : List (List Char)) : dropHeadWs [] chunks = chunks := by
  cases chunks <;> simp [dropHeadWs]

theorem popRev_spec (width : Nat) :
    ∀ l kept, popRev width l = some kept →
      (∃ dropped, l = dropped ++ kept) ∧ sumLen kept + 1 ≤ width ∧
        ∃ c cs, kept = c :: cs ∧ pyStripL c ≠ [] := by
  intro l
  induction l with
  | nil => intro kept h; simp [popRev] at h
  | cons c rest ih =>
    intro kept h
    simp only [popRev] at h
    by_cases hc : pyStripL c ≠ [] ∧ sumLen (c :: rest) + 1 ≤ width
    · rw [if_pos hc] at h
      cases h
      exact ⟨⟨[], rfl⟩, hc.2, c, rest, rfl, hc.1⟩
    · rw [if_neg hc] at h
      obtain ⟨⟨d, hd⟩, hb, hk⟩ := ih kept h
      exact ⟨⟨c :: d, by rw [List.cons_append, hd]⟩, hb, hk⟩

theorem dropTrailingWsChunk_cases (cur : List (List Char)) :
    dropTrailingWsChunk cur = cur ∨ dropTrailingWsChunk cur = cur.dropLast := by
  unfold dropTrailingWsChunk
  cases h : cur.getLast? with
  | none => exact Or.inl rfl
  | some c =>
    by_cases hs : pyStripL c = []
    · simp [hs]
    · simp [hs]

theorem dropTrailingWsChunk_eq_self (cur : List (List Char))
    (h : ∀ c, cur.getLast? = some c → pyStripL c ≠ []) :
    dropTrailingWsChunk cur = cur := by
  unfold dropTrailingWsChunk
  cases hg : cur.getLast? with
  | none => rfl
  | some c => simp [h c hg]

theorem greedySplit_append (width : Nat) :
    ∀ l n, (greedySplit width n l).1 ++ (greedySplit width n l).2 = l := by
  intro l
  induction l with
  | nil => intro n; rfl
  | cons c rest ih =>
    intro n
    simp only [greedySplit]
    by_cases h : n + c.length ≤ width
    · rw [if_pos h]
      simpa using ih (n + c.length)
    · rw [if_neg h]
      rfl

theorem greedySplit_sumLen (width : Nat) :
    ∀ l n, n ≤ width → n + sumLen (greedySplit width n l).1 ≤ width := by
  intro l
  induction l with
  | nil => intro n h; simpa [greedySplit, sumLen] using h
  | cons c rest ih =>
    intro n h
    simp only [greedySplit]
    by_cases hc : n + c.length ≤ width
    · rw [if_pos hc]
      have := ih (n + c.length) hc
      simp only [sumLen_cons]
      omega
    · rw [if_neg hc]
      simpa [sumLen] using h

theorem greedySplit_reject (width n : Nat) (c : List Char) (rest : List (List Char))
    (h : ¬ n + c.length ≤ width) : greedySplit width n (c :: rest) = ([], c :: rest) := by
  simp only [greedySplit]
  rw [if_neg h]

theorem longEnd_le (width curLen : Nat) (c : List Char) :
    longEnd width curLen c ≤ (if width < 1 then 1 else width - curLen) := by
  simp only [longEnd]
  generalize (if width < 1 then 1 else width - curLen) = sl
  split
  · split
    · next hyphen hf =>
      split
      · next hcond =>
        obtain ⟨i, hi, hhy⟩ := Option.map_eq_some'.mp hf
        have h1 : (c.take sl).length ≤ sl := List.length_take_le _ c
        have h2 : (c.take sl) ≠ [] := by
          intro he
          rw [he] at hi
          simp at hi
        have h3 := List.length_pos.mpr h2
        omega
      · exact le_refl _
    · exact le_refl _
  · exact le_refl _

theorem longEnd_pos (width : Nat) (hw : 1 ≤ width) (c : List Char) :
    1 ≤ longEnd width 0 c := by
  have hsl : (if width < 1 then 1 else width - 0) = width := by
    rw [if_neg (by omega)]
    omega
  simp only [longEnd, hsl]
  split
  · split
    · next hyphen hf =>
      split
      · omega
      · exact hw
    · exact hw
  · exact hw

theorem longAdjust_spec (width : Nat) (a b : List (List Char)) :
    (b = [] ∧ longAdjust width a b = (a, [])) ∨
      (∃ c bs, b = c :: bs ∧ ¬ width < c.length ∧ longAdjust width a b = (a, c :: bs)) ∨
      (∃ c bs, b = c :: bs ∧ width < c.length ∧
        longAdjust width a b =
          (a ++ [c.take (longEnd width (sumLen a) c)],
            c.drop (longEnd width (sumLen a) c) :: bs)) := by
  cases b with
  | nil => exact Or.inl ⟨rfl, rfl⟩
  | cons c bs =>
    by_cases h : width < c.length
    · refine Or.inr (Or.inr ⟨c, bs, rfl, h, ?_⟩)
      simp only [longAdjust]
      rw [if_pos h]
    · refine Or.inr (Or.inl ⟨c, bs, rfl, h, ?_⟩)
      simp only [longAdjust]
      rw [if_neg h]

theorem wrapStep_nil_lines (width : Nat) (chunks : List (List Char)) :
    wrapStep width [] chunks =
      (if (wrapCore width chunks).1 = [] then .inr ([], (wrapCore width chunks).2)
       else if ((wrapCore width chunks).2 = [] ∨ ((wrapCore width chunks).2.length = 1 ∧
           pyStripL ((wrapCore width chunks).2.headD []) = [])) ∧
           sumLen (wrapCore width chunks).1 ≤ width then
         .inr ([(wrapCore width chunks).1.flatten], (wrapCore width chunks).2)
       else .inl (wrapTail width [] (wrapCore width chunks).1)) := by
  simp only [wrapStep, dropHeadWs_nil_lines, List.nil_append]

theorem wrapTail_nil_shape (width : Nat) (hw : 1 ≤ width) (cur : List (List Char)) :
    ∃ l, wrapTail width [] cur = [l] ∧ l.length ≤ width := by
  unfold wrapTail
  cases hp : popRev width cur.reverse with
  | some kept =>
    obtain ⟨hd, hb, hk⟩ := popRev_spec width cur.reverse kept hp
    refine ⟨kept.reverse.flatten ++ ['…'], by simp, ?_⟩
    rw [List.length_append, flatten_length, sumLen_reverse]
    simpa using hb
  | none =>
    exact ⟨['…'], by simp, by simpa using hw⟩

theorem wrapStep_inl_shape (width : Nat) (hw : 1 ≤ width) (chunks done : List (List Char))
    (h : wrapStep width [] chunks = .inl done) :
    ∃ l, done = [l] ∧ l.length ≤ width := by
  rw [wrapStep_nil_lines] at h
  split at h
  · cases h
  · split at h
    · cases h
    · cases h
      exact wrapTail_nil_shape width hw _

theorem wrapStep_inr_inv (width : Nat) (chunks : List (List Char))
    (lc : List (List Char) × List (List Char))
    (h : wrapStep width [] chunks = .inr lc) :
    lc.1 = [] ∨ ∃ l, lc.1 = [l] ∧ l.length ≤ width ∧
      (lc.2 = [] ∨ ∃ c, lc.2 = [c] ∧ pyStripL c = []) := by
  rw [wrapStep_nil_lines] at h
  split at h
  · cases h
    exact Or.inl rfl
  · split at h
    · next hcond =>
      cases h
      refine Or.inr ⟨(wrapCore width chunks).1.flatten, rfl, ?_, ?_⟩
      · rw [flatten_length]
        exact hcond.2
      · rcases hcond.1 with h1 | ⟨h1, h2⟩
        · exact Or.inl h1
        · obtain ⟨c, hc⟩ := List.length_eq_one.mp h1
          refine Or.inr ⟨c, hc, ?_⟩
          rw [hc] at h2
          simpa using h2
    · cases h

theorem wrapGo_shape (width : Nat) (hw : 1 ≤ width) :
    ∀ fuel lines chunks,
      (lines = [] ∨ ∃ l, lines = [l] ∧ l.length ≤ width ∧
        (chunks = [] ∨ ∃ c, chunks = [c] ∧ pyStripL c = [])) →
      (wrapGo width fuel lines chunks = [] ∨
        ∃ l, wrapGo width fuel lines chunks = [l] ∧ l.length ≤ width) := by
  intro fuel
  induction fuel with
  | zero =>
    intro lines chunks hinv
    rcases hinv with h | ⟨l, hl, hlen, _⟩
    · exact Or.inl (by rw [h]; rfl)
    · exact Or.inr ⟨l, by rw [hl]; rfl, hlen⟩
  | succ fuel ih =>
    intro lines chunks hinv
    by_cases hc : chunks = []
    · subst hc
      rcases hinv with h | ⟨l, hl, hlen, _⟩
      · subst h
        exact Or.inl (by simp [wrapGo])
      · subst hl
        exact Or.inr ⟨l, by simp [wrapGo], hlen⟩
    · rcases hinv with h | ⟨l, hl, hlen, hck⟩
      · subst h
        have hgo : wrapGo width (fuel + 1) [] chunks =
            (match wrapStep width [] chunks with
             | .inl done => done
             | .inr lc => wrapGo width fuel lc.1 lc.2) := by
          simp [wrapGo, hc]
        rw [hgo]
        cases hws : wrapStep width [] chunks with
        | inl done =>
          obtain ⟨l, hdl, hb⟩ := wrapStep_inl_shape width hw chunks done hws
          exact Or.inr ⟨l, by rw [hdl], hb⟩
        | inr lc =>
          exact ih lc.1 lc.2 (wrapStep_inr_inv width chunks lc hws)
      · subst hl
        rcases hck with hck | ⟨c, hck, hstrip⟩
        · exact absurd hck hc
        · subst hck
          have hstep : wrapStep width [l] [c] = .inr ([l], []) := by
            simp [wrapStep, dropHeadWs, hstrip, wrapCore, greedySplit, longAdjust,
              dropTrailingWsChunk]
          have hgo : wrapGo width (fuel + 1) [l] [c] = wrapGo width fuel [l] [] := by
            simp [wrapGo, hstep]
          rw [hgo]
          exact ih [l] [] (Or.inr ⟨l, rfl, hlen, Or.inl rfl⟩)

theorem wrapChunksL_shape (width : Nat) (hw : 1 ≤ width) (chunks : List (List Char)) :
    wrapChunksL width chunks = [] ∨
      ∃ l, wrapChunksL width chunks = [l] ∧ l.length ≤ width :=
  wrapGo_shape width hw (chunkMeasure chunks + 1) [] chunks (Or.inl rfl)

theorem fillOneLine_length (width : Nat) (hw : 1 ≤ width) (text : List Char) :
    (fillOneLine width text).length ≤ width := by
  unfold fillOneLine
  rcases wrapChunksL_shape width hw (wordsepChunks (mungeWs text)) with h | ⟨l, hl, hb⟩
  · rw [h]
    simp [List.intercalate]
  · rw [hl]
    have he : List.intercalate ['\n'] [l] = l := by simp [List.intercalate]
    rw [he]
    exact hb

theorem pyShorten_length (text : String) (width : Int) (hw : 0 < width) (s : String)
    (h : pyShorten text width = .ok s) : (s.length : Int) ≤ width := by
  simp only [pyShorten] at h
  rw [if_neg (by omega), if_neg (by omega)] at h
  cases h
  have hb := fillOneLine_length width.toNat (by omega) (collapseWs text.data)
  have hlen : (String.mk (fillOneLine width.toNat (collapseWs text.data))).length =
      (fillOneLine width.toNat (collapseWs text.data)).length := rfl
  rw [hlen]
  omega

/-- Claim C1 (amended): whenever the static template parts fit in 140
characters, the composed message has length at most 140 characters. -/
theorem compose_within_budget (n t d u : String)
    (h : (staticText n t u).length ≤ 140) :
    ∀ s, compose_post n t d u = .ok s → s.length ≤ 140 := by
  intro s hs
  unfold compose_post at hs
  cases hcsd : composeShortDesc n t d u with
  | error e =>
    rw [hcsd] at hs
    cases hs
  | ok sd =>
    rw [hcsd] at hs
    have hse : s = templateRender n t sd u := by
      cases hs
      rfl
    subst hse
    have hbound : (sd.length : Int) ≤ max (availableForDesc n t u) 0 := by
      unfold composeShortDesc at hcsd
      by_cases h1 : 0 < availableForDesc n t u
      · rw [if_pos h1] at hcsd
        by_cases h2 : availableForDesc n t u < ((String.mk (pyStripL d.data)).length : Int)
        · rw [if_pos h2] at hcsd
          have := pyShorten_length _ _ h1 _ hcsd
          omega
        · rw [if_neg h2] at hcsd
          cases hcsd
          omega
      · rw [if_neg h1] at hcsd
        cases hcsd
        simp
    rw [templateRender_length]
    unfold availableForDesc at hbound
    omega

/-- Witness for compose_within_budget at a concrete record. -/
theorem compose_within_budget_witness :
    (templateRender "Tool" "tag" "desc" "http://x.test").length ≤ 140 :=
  compose_within_budget "Tool" "tag" "desc" "http://x.test" (by decide)
    (templateRender "Tool" "tag" "desc" "http://x.test") (by rfl)

/- ===== Structure of split words and collapsed text ===== -/

theorem asciiWs_isWs (c : Char) (h : asciiWs c = true) : pyIsWs c = true := by
  simp only [asciiWs, decide_eq_true_eq] at h
  simp only [pyIsWs, decide_eq_true_eq]
  omega

theorem dropWhile_head_false {p : Char → Bool} :
    ∀ (l : List Char) c cs, l.dropWhile p = c :: cs → p c = false := by
  intro l
  induction l with
  | nil => intro c cs h; simp at h
  | cons a l ih =>
    intro c cs h
    by_cases hp : p a
    · rw [List.dropWhile_cons_of_pos hp] at h
      exact ih c cs h
    · rw [List.dropWhile_cons_of_neg hp] at h
      cases h
      simpa using hp

theorem dropWhile_of_all_false {p : Char → Bool} (l : List Char)
    (h : ∀ ch ∈ l, p ch = false) : l.dropWhile p = l := by
  cases l with
  | nil => rfl
  | cons a l =>
    rw [List.dropWhile_cons_of_neg]
    simp [h a (by simp)]

theorem strip_of_all_nonws (c : List Char) (h : ∀ ch ∈ c, pyIsWs ch = false) :
    pyStripL c = c := by
  unfold pyStripL
  rw [dropWhile_of_all_false c h, dropWhile_of_all_false c.reverse
    (fun ch hc => h ch (List.mem_reverse.mp hc)), List.reverse_reverse]

theorem strip_ne_nil_of_mem_nonws (c : List Char) (ch : Char) (hm : ch ∈ c)
    (hws : pyIsWs ch = false) : pyStripL c ≠ [] := by
  intro he
  unfold pyStripL at he
  rw [List.reverse_eq_nil_iff] at he
  rw [List.dropWhile_eq_nil_iff] at he
  rcases (List.takeWhile_append_dropWhile (p := pyIsWs) (l := c)).symm ▸ hm with hmm
  rw [List.mem_append] at hmm
  rcases hmm with h1 | h2
  · rw [List.mem_takeWhile_imp h1] at hws
    cases hws
  · have := he ch (List.mem_reverse.mpr h2)
    rw [this] at hws
    cases hws

theorem rev_dropWhile_rev_head {p : Char → Bool} (c : Char) (cs : List Char)
    (hc : p c = false) :
    ∃ ds, (List.dropWhile p (c :: cs).reverse).reverse = c :: ds := by
  have hy : List.dropWhile p (c :: cs).reverse ≠ [] := by
    intro hnil
    rw [List.dropWhile_eq_nil_iff] at hnil
    have := hnil c (by simp)
    rw [this] at hc
    cases hc
  obtain ⟨pre, hpre⟩ := List.dropWhile_suffix (l := (c :: cs).reverse) p
  have hlast : (List.dropWhile p (c :: cs).reverse).getLast? = some c := by
    rw [← List.getLast?_append_of_ne_nil pre hy, hpre]
    simp
  have hhead : (List.dropWhile p (c :: cs).reverse).reverse.head? = some c := by
    rw [List.head?_reverse]
    exact hlast
  cases hrev : (List.dropWhile p (c :: cs).reverse).reverse with
  | nil => rw [hrev] at hhead; simp at hhead
  | cons d ds =>
    rw [hrev] at hhead
    simp at hhead
    exact ⟨ds, by rw [hhead]⟩

theorem strip_head_nonws (l : List Char) (h : pyStripL l ≠ []) :
    ∃ c cs, pyStripL l = c :: cs ∧ pyIsWs c = false := by
  cases hx : l.dropWhile pyIsWs with
  | nil =>
    exfalso
    apply h
    unfold pyStripL
    rw [hx]
    rfl
  | cons c cs =>
    have hc : pyIsWs c = false := dropWhile_head_false l c cs hx
    obtain ⟨ds, hds⟩ := rev_dropWhile_rev_head c cs hc
    refine ⟨c, ds, ?_, hc⟩
    unfold pyStripL
    rw [hx, hds]

theorem pySplitGo_words :
    ∀ fuel (l : List Char) w, w ∈ pySplitGo fuel l →
      w ≠ [] ∧ ∀ c ∈ w, pyIsWs c = false := by
  intro fuel
  induction fuel with
  | zero => intro l w hw; simp [pySplitGo] at hw
  | succ fuel ih =>
    intro l w hw
    simp only [pySplitGo] at hw
    cases hd : l.dropWhile pyIsWs with
    | nil => rw [hd] at hw; simp at hw
    | cons c cs =>
      rw [hd] at hw
      rcases List.mem_cons.mp hw with hw | hw
      · subst hw
        have hc : pyIsWs c = false := dropWhile_head_false l c cs hd
        constructor
        · rw [List.takeWhile_cons_of_pos (by simp [hc])]
          simp
        · intro ch hch
          have := List.mem_takeWhile_imp hch
          simpa using this
      · exact ih _ w hw

theorem pySplitL_words (l : List Char) (w : List Char) (hw : w ∈ pySplitL l) :
    w ≠ [] ∧ ∀ c ∈ w, pyIsWs c = false :=
  pySplitGo_words _ l w hw

theorem pySplitL_ne_nil (l : List Char) (ch : Char) (hm : ch ∈ l)
    (hws : pyIsWs ch = false) : pySplitL l ≠ [] := by
  unfold pySplitL
  simp only [pySplitGo]
  cases hd : l.dropWhile pyIsWs with
  | nil =>
    rw [List.dropWhile_eq_nil_iff] at hd
    rw [hd ch hm] at hws
    cases hws
  | cons c cs => simp


theorem space_isWs : pyIsWs ' ' = true := by decide

theorem ne_space_of_nonws (a : Char) (h : pyIsWs a = false) : a ≠ ' ' := by
  intro he
  rw [he, space_isWs] at h
  cases h

theorem chain'_no2sp_of_nonspace (l : List Char) (h : ∀ a ∈ l, a ≠ ' ') :
    List.Chain' (fun a b => ¬(a = ' ' ∧ b = ' ')) l := by
  induction l with
  | nil => simp
  | cons a l ih =>
    cases l with
    | nil => simp
    | cons b t =>
      rw [List.chain'_cons]
      exact ⟨fun hc => h a (by simp) hc.1,
        ih (fun x hx => h x (List.mem_cons_of_mem a hx))⟩

theorem intercalate_cons_ne_nil (sep w : List Char) (ws : List (List Char)) (h : ws ≠ []) :
    List.intercalate sep (w :: ws) = w ++ sep ++ List.intercalate sep ws := by
  cases ws with
  | nil => exact absurd rfl h
  | cons b t => simp [List.intercalate, List.intersperse]

theorem mem_of_getLast?_eq_some {α : Type} (l : List α) (x : α)
    (h : l.getLast? = some x) : x ∈ l := by
  obtain ⟨l2, hl2⟩ := List.getLast?_eq_some_iff.mp h
  rw [hl2]
  simp

theorem collapse_facts :
    ∀ (ws : List (List Char)),
      (∀ w ∈ ws, w ≠ [] ∧ ∀ c ∈ w, pyIsWs c = false) →
      (∀ ch ∈ List.intercalate [' '] ws, pyIsWs ch = true → ch = ' ') ∧
        List.Chain' (fun a b => ¬(a = ' ' ∧ b = ' ')) (List.intercalate [' '] ws) ∧
        (∀ w ws2, ws = w :: ws2 →
          ∃ c cs, List.intercalate [' '] ws = c :: cs ∧ pyIsWs c = false) ∧
        (ws ≠ [] →
          ∃ ch, (List.intercalate [' '] ws).getLast? = some ch ∧ pyIsWs ch = false) := by
  intro ws
  induction ws with
  | nil =>
    intro _
    refine ⟨by simp [List.intercalate], by simp [List.intercalate], ?_, ?_⟩
    · intro w ws2 h
      cases h
    · intro h
      exact absurd rfl h
  | cons w ws ih =>
    intro hok
    obtain ⟨hwne, hwnonws⟩ := hok w (by simp)
    have hws : ∀ v ∈ ws, v ≠ [] ∧ ∀ c ∈ v, pyIsWs c = false :=
      fun v hv => hok v (List.mem_cons_of_mem w hv)
    cases hws2 : ws with
    | nil =>
      have hsing : List.intercalate [' '] [w] = w := by simp [List.intercalate]
      subst hws2
      rw [hsing]
      refine ⟨?_, ?_, ?_, ?_⟩
      · intro ch hch hchws
        rw [hwnonws ch hch] at hchws
        cases hchws
      · exact chain'_no2sp_of_nonspace w (fun a ha => ne_space_of_nonws a (hwnonws a ha))
      · intro v ws2 h
        cases h
        cases hcw : w with
        | nil => exact absurd hcw hwne
        | cons c cs => exact ⟨c, cs, rfl, hwnonws c (by rw [hcw]; simp)⟩
      · intro _
        cases hcw : w.getLast? with
        | none => rw [List.getLast?_eq_none_iff] at hcw; exact absurd hcw hwne
        | some ch =>
          exact ⟨ch, rfl, hwnonws ch (mem_of_getLast?_eq_some w ch hcw)⟩
    | cons b t =>
      rw [← hws2]
      have hwsne : ws ≠ [] := by rw [hws2]; simp
      obtain ⟨ih1, ih2, ih3, ih4⟩ := ih hws
      obtain ⟨rc, rcs, hrc, hrcw⟩ := ih3 b t hws2
      have hinter := intercalate_cons_ne_nil [' '] w ws hwsne
      refine ⟨?_, ?_, ?_, ?_⟩
      · intro ch hch hchws
        rw [hinter] at hch
        rcases List.mem_append.mp hch with hch | hch
        · rcases List.mem_append.mp hch with hch | hch
          · rw [hwnonws ch hch] at hchws
            cases hchws
          · simpa using hch
        · exact ih1 ch hch hchws
      · rw [hinter, List.append_assoc]
        rw [List.chain'_append]
        refine ⟨chain'_no2sp_of_nonspace w
          (fun a ha => ne_space_of_nonws a (hwnonws a ha)), ?_, ?_⟩
        · rw [show ([' '] ++ List.intercalate [' '] ws) = ' ' :: List.intercalate [' '] ws
            from rfl]
          rw [List.chain'_cons']
          refine ⟨?_, ih2⟩
          intro y hy
          rw [hrc] at hy
          simp at hy
          subst hy
          intro hcc
          exact absurd hcc.2 (ne_space_of_nonws rc hrcw)
        · intro x hx y hy
          simp only [Option.mem_def] at hx
          have hxw : x ∈ w := mem_of_getLast?_eq_some w x hx
          intro hcc
          exact absurd hcc.1 (ne_space_of_nonws x (hwnonws x hxw))
      · intro v ws2 h
        cases h
        cases hcw : w with
        | nil => exact absurd hcw hwne
        | cons c cs =>
          rw [hcw] at hinter hwnonws
          rw [hinter]
          exact ⟨c, cs ++ [' '] ++ List.intercalate [' '] ws, by simp,
            hwnonws c (by simp)⟩
      · intro _
        rw [hinter]
        have hrne : List.intercalate [' '] ws ≠ [] := by rw [hrc]; simp
        rw [List.getLast?_append_of_ne_nil (w ++ [' ']) hrne]
        exact ih4 hwsne

/- ===== Structure of the wordsep chunk stream ===== -/

theorem find?_range'_min (p : Nat → Bool) :
    ∀ (n s j : Nat), (List.range' s n).find? p = some j →
      ∀ k, s ≤ k → k < j → p k = false := by
  intro n
  induction n with
  | zero => intro s j h; simp [List.range'] at h
  | succ n ih =>
    intro s j h k hsk hkj
    rw [List.range'_succ] at h
    by_cases hp : p s
    · rw [List.find?_cons_of_pos _ hp] at h
      cases h
      omega
    · rw [List.find?_cons_of_neg _ hp] at h
      by_cases hk : k = s
      · subst hk
        simpa using hp
      · exact ih (s + 1) j h k (by omega) hkj

theorem find?_range'_exists (p : Nat → Bool) (s n j0 : Nat) (h0 : p j0 = true)
    (hmem : j0 ∈ List.range' s n) :
    ∃ j, (List.range' s n).find? p = some j ∧ j ≤ j0 := by
  have hsome : ((List.range' s n).find? p).isSome := by
    rw [List.find?_isSome]
    exact ⟨j0, hmem, h0⟩
  obtain ⟨j, hj⟩ := Option.isSome_iff_exists.mp hsome
  refine ⟨j, hj, ?_⟩
  by_contra hlt
  push_neg at hlt
  have hmin := find?_range'_min p n s j hj j0 (by rw [List.mem_range'_1] at hmem; omega) hlt
  rw [h0] at hmin
  cases hmin

theorem findEnd_pos (prevRev rest : List Char) (h : rest ≠ []) :
    1 ≤ findEnd prevRev rest := by
  unfold findEnd
  cases hf : (List.range' 1 rest.length).find? (endCond prevRev rest) with
  | none =>
    have : 1 ≤ rest.length := by
      cases rest with
      | nil => exact absurd rfl h
      | cons a l => simp
    simpa using this
  | some j =>
    have hmem := List.mem_of_find?_eq_some hf
    rw [List.mem_range'_1] at hmem
    simpa using hmem.1

theorem findEnd_le_len (prevRev rest : List Char) :
    findEnd prevRev rest ≤ rest.length := by
  unfold findEnd
  cases hf : (List.range' 1 rest.length).find? (endCond prevRev rest) with
  | none => simp
  | some j =>
    have hmem := List.mem_of_find?_eq_some hf
    rw [List.mem_range'_1] at hmem
    simpa using by omega

theorem findEnd_min (prevRev rest : List Char) (j0 : Nat) (h1 : 1 ≤ j0)
    (h2 : j0 ≤ rest.length) (hc : endCond prevRev rest j0 = true) :
    findEnd prevRev rest ≤ j0 := by
  obtain ⟨j, hj, hle⟩ := find?_range'_exists (endCond prevRev rest) 1 rest.length j0 hc
    (by rw [List.mem_range'_1]; omega)
  unfold findEnd
  rw [hj]
  exact hle

theorem findEnd_chunk_nonascii (prevRev : List Char) (c : Char) (cs : List Char)
    (hhead : asciiWs c = false) :
    ∀ i, i < findEnd prevRev (c :: cs) → ∀ ch, (c :: cs).get? i = some ch →
      asciiWs ch = false := by
  intro i hi ch hch
  by_contra hws
  rw [Bool.not_eq_false] at hws
  cases i with
  | zero =>
    simp at hch
    rw [hch, hws] at hhead
    cases hhead
  | succ m =>
    have hcond : endCond prevRev (c :: cs) (m + 1) = true := by
      unfold endCond
      rw [hch]
      simp [hws]
    have hlen : m + 1 ≤ (c :: cs).length := by
      have := findEnd_le_len prevRev (c :: cs)
      omega
    have := findEnd_min prevRev (c :: cs) (m + 1) (by omega) hlen hcond
    omega

theorem wsGo_flatten :
    ∀ fuel (prevRev rest : List Char), rest.length < fuel →
      (wsGo fuel prevRev rest).flatten = rest := by
  intro fuel
  induction fuel with
  | zero => intro prevRev rest h; omega
  | succ fuel ih =>
    intro prevRev rest h
    cases rest with
    | nil => simp [wsGo]
    | cons c cs =>
      simp only [wsGo, List.flatten_cons]
      have h1 : 1 ≤ max 1 (wsChunkLen prevRev (c :: cs)) := le_max_left 1 _
      have h2 : ((c :: cs).drop (max 1 (wsChunkLen prevRev (c :: cs)))).length =
          (c :: cs).length - max 1 (wsChunkLen prevRev (c :: cs)) :=
        List.length_drop _ _
      have h3 : (c :: cs).length = cs.length + 1 := by simp
      rw [ih _ _ (by omega)]
      exact List.take_append_drop _ _

theorem wsGo_chunks_ok :
    ∀ fuel (prevRev rest : List Char),
      (∀ a ∈ rest, pyIsWs a = true → a = ' ') →
      List.Chain' (fun a b => ¬(a = ' ' ∧ b = ' ')) rest →
      ∀ ch ∈ wsGo fuel prevRev rest,
        ch ≠ [] ∧ (ch = [' '] ∨ ∀ a ∈ ch, pyIsWs a = false) := by
  intro fuel
  induction fuel with
  | zero => intro prevRev rest _ _ ch hch; simp [wsGo] at hch
  | succ fuel ih =>
    intro prevRev rest hP1 hP2 ch hch
    cases rest with
    | nil => simp [wsGo] at hch
    | cons c cs =>
      simp only [wsGo] at hch
      rcases List.mem_cons.mp hch with hch | hch
      · subst hch
        have hn1 : 1 ≤ max 1 (wsChunkLen prevRev (c :: cs)) := le_max_left 1 _
        constructor
        · cases hnn : max 1 (wsChunkLen prevRev (c :: cs)) with
          | zero => omega
          | succ m => simp
        · by_cases hws : asciiWs c
          · left
            have hc' : c = ' ' := hP1 c (by simp) (asciiWs_isWs c hws)
            have htw : (c :: cs).takeWhile asciiWs = [c] := by
              rw [List.takeWhile_cons_of_pos hws]
              congr 1
              cases cs with
              | nil => rfl
              | cons c2 t =>
                by_cases h2 : asciiWs c2
                · exfalso
                  have h2' : c2 = ' ' := hP1 c2 (by simp) (asciiWs_isWs c2 h2)
                  exact hP2.rel_head ⟨hc', h2'⟩
                · rw [List.takeWhile_cons_of_neg h2]
            have hlen : wsChunkLen prevRev (c :: cs) = 1 := by
              simp only [wsChunkLen]
              rw [if_pos hws, htw]
              rfl
            rw [hlen]
            simp [hc']
          · right
            have key : ∀ a ∈ (c :: cs).take (max 1 (wsChunkLen prevRev (c :: cs))),
                asciiWs a = false := by
              have hcl : wsChunkLen prevRev (c :: cs) =
                  (if emDashAt prevRev (c :: cs) then
                    ((c :: cs).takeWhile (fun a => a = '-')).length
                  else findEnd prevRev (c :: cs)) := by
                simp only [wsChunkLen]
                rw [if_neg hws]
              rw [hcl]
              by_cases hed : emDashAt prevRev (c :: cs) = true
              · rw [if_pos hed]
                have hd2 : 2 ≤ ((c :: cs).takeWhile (fun a => a = '-')).length := by
                  unfold emDashAt at hed
                  simp only [Bool.and_eq_true, decide_eq_true_eq] at hed
                  exact hed.1.2
                have hmax : max 1 ((c :: cs).takeWhile (fun a => a = '-')).length =
                    ((c :: cs).takeWhile (fun a => a = '-')).length := by omega
                rw [hmax]
                have htake : (c :: cs).take ((c :: cs).takeWhile (fun a => a = '-')).length =
                    (c :: cs).takeWhile (fun a => a = '-') :=
                  (List.prefix_iff_eq_take.mp (List.takeWhile_prefix _)).symm
                rw [htake]
                intro a ha
                have := List.mem_takeWhile_imp ha
                simp only [decide_eq_true_eq] at this
                rw [this]
                decide
              · rw [if_neg hed]
                have hpos : 1 ≤ findEnd prevRev (c :: cs) :=
                  findEnd_pos prevRev (c :: cs) (by simp)
                have hmax : max 1 (findEnd prevRev (c :: cs)) = findEnd prevRev (c :: cs) := by
                  omega
                rw [hmax]
                intro a ha
                obtain ⟨i, hi, hgi⟩ := List.mem_take_iff_getElem.mp ha
                have hilen : i < (c :: cs).length := lt_of_lt_of_le hi (min_le_right _ _)
                have hget : (c :: cs).get? i = some a := by
                  rw [List.get?_eq_getElem?, List.getElem?_eq_getElem hilen, hgi]
                exact findEnd_chunk_nonascii prevRev c cs (by simpa using hws) i
                  (by omega) a hget
            intro a ha
            by_contra hpw
            rw [Bool.not_eq_false] at hpw
            have ha' := hP1 a (List.mem_of_mem_take ha) hpw
            have hsp : asciiWs a = true := by
              rw [ha']
              decide
            rw [key a ha] at hsp
            cases hsp
      · exact ih _ _
          (fun a haa hw => hP1 a (List.mem_of_mem_drop haa) hw)
          (hP2.suffix (List.drop_suffix _ _)) ch hch

/- ===== First-iteration analysis of the wrap on structured chunks ===== -/

/-- A word-boundary cut of the chunk stream: a flattened prefix of whole
chunks, optionally extended by a nonempty prefix of the next chunk when
that chunk alone is longer than the whole width (the unavoidable
long-word break). -/
def WordPrefixCut (width : Nat) (chunks : List (List Char)) (pre : List Char) : Prop :=
  ∃ j p, pre = (chunks.take j).flatten ++ p ∧
    (p = [] ∨ ∃ c, chunks.get? j = some c ∧ p ≠ [] ∧ p <+: c ∧ width < c.length)

theorem wordPrefixCut_of_prefix (width : Nat) (chunks l : List (List Char))
    (h : l <+: chunks) : WordPrefixCut width chunks l.flatten := by
  refine ⟨l.length, [], ?_, Or.inl rfl⟩
  rw [← List.prefix_iff_eq_take.mp h]
  simp

theorem dropTrailing_eq_nil (l : List (List Char)) (h : dropTrailingWsChunk l = []) :
    l = [] ∨ ∃ y, l = [y] ∧ pyStripL y = [] := by
  unfold dropTrailingWsChunk at h
  cases hg : l.getLast? with
  | none =>
    rw [hg] at h
    rw [List.getLast?_eq_none_iff] at hg
    exact Or.inl hg
  | some y =>
    rw [hg] at h
    have h2 : (if pyStripL y = [] then l.dropLast else l) = [] := h
    by_cases hs : pyStripL y = []
    · rw [if_pos hs] at h2
      obtain ⟨l2, hl2⟩ := List.getLast?_eq_some_iff.mp hg
      right
      refine ⟨y, ?_, hs⟩
      rw [hl2] at h2
      rw [List.dropLast_concat] at h2
      rw [hl2, h2]
      rfl
    · rw [if_neg hs] at h2
      rw [h2] at hg
      simp at hg

theorem longEnd_eq_zero (width curLen : Nat) (c : List Char)
    (h : longEnd width curLen c = 0) :
    (if width < 1 then 1 else width - curLen) = 0 := by
  simp only [longEnd] at h
  generalize hsl : (if width < 1 then 1 else width - curLen) = sl at h
  split at h
  · split at h
    · split at h
      · omega
      · exact h
    · exact h
  · exact h

theorem wrapGo_nil_chunks (width : Nat) : ∀ fuel lines, wrapGo width fuel lines [] = lines := by
  intro fuel lines
  cases fuel with
  | zero => rfl
  | succ f => simp [wrapGo]

theorem wrapTail_result (width : Nat) (cur : List (List Char)) :
    wrapTail width [] cur = [['…']] ∨
      ∃ kept, popRev width cur.reverse = some kept ∧
        wrapTail width [] cur = [kept.reverse.flatten ++ ['…']] ∧ kept.reverse <+: cur ∧
        ∃ k0 ks, kept = k0 :: ks ∧ pyStripL k0 ≠ [] := by
  unfold wrapTail
  cases hp : popRev width cur.reverse with
  | none => exact Or.inl rfl
  | some kept =>
    obtain ⟨⟨dropped, hd⟩, hb, k0, ks, hk, hks⟩ := popRev_spec width cur.reverse kept hp
    right
    refine ⟨kept, rfl, by simp, ?_, k0, ks, hk, hks⟩
    refine ⟨dropped.reverse, ?_⟩
    have : cur = (dropped ++ kept).reverse := by
      rw [← hd]
      simp
    rw [this]
    simp

theorem dropTrailing_concat_ws (x : List (List Char)) (y : List Char)
    (hy : pyStripL y = []) : dropTrailingWsChunk (x ++ [y]) = x := by
  unfold dropTrailingWsChunk
  rw [List.getLast?_concat]
  simp [hy]

theorem dropTrailing_concat_keep (x : List (List Char)) (y : List Char)
    (hy : pyStripL y ≠ []) : dropTrailingWsChunk (x ++ [y]) = x ++ [y] := by
  unfold dropTrailingWsChunk
  rw [List.getLast?_concat]
  simp [hy]

theorem flatten_getLast?_eq (chunks : List (List Char)) (c : List Char)
    (hlast : chunks.getLast? = some c) (hc : c ≠ []) :
    chunks.flatten.getLast? = c.getLast? := by
  obtain ⟨l2, hl2⟩ := List.getLast?_eq_some_iff.mp hlast
  rw [hl2, List.flatten_append]
  simp only [List.flatten_cons, List.flatten_nil, List.append_nil]
  exact List.getLast?_append_of_ne_nil _ hc

theorem wrapChunks_structured (width : Nat) (hw : 1 ≤ width) (chunks : List (List Char))
    (hne : chunks ≠ [])
    (hok : ∀ ch ∈ chunks, ch ≠ [] ∧ (ch = [' '] ∨ ∀ a ∈ ch, pyIsWs a = false))
    (hfirst : ∀ c cs, chunks = c :: cs → c ≠ [' '])
    (hlast : ∀ c, chunks.getLast? = some c → pyStripL c ≠ []) :
    wrapChunksL width chunks = [chunks.flatten] ∨
      ∃ pre, wrapChunksL width chunks = [pre ++ ['…']] ∧
        WordPrefixCut width chunks pre := by
  have hgo1 : wrapChunksL width chunks =
      (match wrapStep width [] chunks with
       | .inl done => done
       | .inr lc => wrapGo width (chunkMeasure chunks) lc.1 lc.2) := by
    unfold wrapChunksL
    simp only [wrapGo]
    rw [if_neg hne]
  set g := greedySplit width 0 chunks with hgdef
  have ha : g.1 ++ g.2 = chunks := greedySplit_append width chunks 0
  have hsum : sumLen g.1 ≤ width := by
    have := greedySplit_sumLen width chunks 0 (Nat.zero_le width)
    simpa [← hgdef] using this
  have hpre1 : g.1 <+: chunks := ⟨g.2, ha⟩
  cases hg2 : g.2 with
  | nil =>
    have hg1 : g.1 = chunks := by
      rw [hg2] at ha
      simpa using ha
    have hla : longAdjust width g.1 g.2 = (g.1, []) := by
      rw [hg2]
      rfl
    have hcore : wrapCore width chunks = (chunks, []) := by
      simp only [wrapCore, ← hgdef, hla]
      rw [hg1, dropTrailingWsChunk_eq_self chunks hlast]
    have hstep : wrapStep width [] chunks = .inr ([chunks.flatten], []) := by
      rw [wrapStep_nil_lines, hcore]
      rw [if_neg (show ¬ ((chunks, ([] : List (List Char))).1 = []) from hne)]
      rw [if_pos (show ((chunks, ([] : List (List Char))).2 = [] ∨
          ((chunks, ([] : List (List Char))).2.length = 1 ∧
            pyStripL ((chunks, ([] : List (List Char))).2.headD []) = [])) ∧
          sumLen (chunks, ([] : List (List Char))).1 ≤ width from
        ⟨Or.inl rfl, hg1 ▸ hsum⟩)]
    rw [hgo1, hstep]
    left
    exact wrapGo_nil_chunks width _ _
  | cons c bs =>
    have hcmem : c ∈ chunks := by
      rw [← ha, hg2]
      exact List.mem_append.mpr (Or.inr (by simp))
    obtain ⟨hcne, hcclass⟩ := hok c hcmem
    have hchunks_eq : chunks = g.1 ++ c :: bs := by rw [← ha, hg2]
    by_cases hlw : width < c.length
    · -- the long-word path
      have hcnonws : ∀ a ∈ c, pyIsWs a = false := by
        rcases hcclass with h1 | h1
        · exfalso
          rw [h1] at hlw
          simp at hlw
          omega
        · exact h1
      have hele : longEnd width (sumLen g.1) c ≤ width - sumLen g.1 := by
        have := longEnd_le width (sumLen g.1) c
        rw [if_neg (by omega)] at this
        exact this
      have hla : longAdjust width g.1 g.2 =
          (g.1 ++ [c.take (longEnd width (sumLen g.1) c)],
            c.drop (longEnd width (sumLen g.1) c) :: bs) := by
        rw [hg2]
        simp only [longAdjust]
        rw [if_pos hlw]
      have hdropne : c.drop (longEnd width (sumLen g.1) c) ≠ [] := by
        intro hde
        have h1 : c.length - longEnd width (sumLen g.1) c = 0 := by
          have := List.length_drop (longEnd width (sumLen g.1) c) c
          rw [hde] at this
          simpa using this.symm
        omega
      have hdropstrip : pyStripL (c.drop (longEnd width (sumLen g.1) c)) ≠ [] := by
        rw [strip_of_all_nonws _ (fun a haa => hcnonws a (List.mem_of_mem_drop haa))]
        exact hdropne
      by_cases hp0 : c.take (longEnd width (sumLen g.1) c) = []
      · -- the cut piece is empty and is dropped again
        have he0 : longEnd width (sumLen g.1) c = 0 := by
          rcases List.take_eq_nil_iff.mp hp0 with h1 | h1
          · exact h1
          · exact absurd h1 hcne
        have hg1ne : g.1 ≠ [] := by
          intro h0
          have hz := longEnd_eq_zero width (sumLen g.1) c he0
          rw [if_neg (by omega)] at hz
          rw [h0] at hz
          simp [sumLen] at hz
          omega
        have hcore : wrapCore width chunks =
            (g.1, c.drop (longEnd width (sumLen g.1) c) :: bs) := by
          simp only [wrapCore, ← hgdef, hla]
          rw [dropTrailing_concat_ws g.1 _ (by rw [hp0]; rfl)]
        have hstep : wrapStep width [] chunks = .inl (wrapTail width [] g.1) := by
          rw [wrapStep_nil_lines, hcore]
          rw [if_neg (show ¬ ((g.1, c.drop (longEnd width (sumLen g.1) c) :: bs).1 = [])
            from hg1ne)]
          rw [if_neg ?hc]
          case hc =>
            rintro ⟨h1 | h1, -⟩
            · cases h1
            · exact hdropstrip (by simpa using h1.2)
        rw [hgo1, hstep]
        right
        rcases wrapTail_result width g.1 with ht | ⟨kept, hpop, heq, hkpre, _⟩
        · exact ⟨[], by rw [ht]; rfl, 0, [], by simp, Or.inl rfl⟩
        · exact ⟨kept.reverse.flatten, by rw [heq],
            wordPrefixCut_of_prefix width chunks _ (hkpre.trans hpre1)⟩
      · -- the cut piece is kept on the line
        have hpstrip : pyStripL (c.take (longEnd width (sumLen g.1) c)) ≠ [] := by
          rw [strip_of_all_nonws _ (fun a haa => hcnonws a (List.mem_of_mem_take haa))]
          exact hp0
        have hcore : wrapCore width chunks =
            (g.1 ++ [c.take (longEnd width (sumLen g.1) c)],
              c.drop (longEnd width (sumLen g.1) c) :: bs) := by
          simp only [wrapCore, ← hgdef, hla]
          rw [dropTrailing_concat_keep g.1 _ hpstrip]
        have hstep : wrapStep width [] chunks =
            .inl (wrapTail width [] (g.1 ++ [c.take (longEnd width (sumLen g.1) c)])) := by
          rw [wrapStep_nil_lines, hcore]
          rw [if_neg (show ¬ ((g.1 ++ [c.take (longEnd width (sumLen g.1) c)],
              c.drop (longEnd width (sumLen g.1) c) :: bs).1 = []) from by simp)]
          rw [if_neg ?hc2]
          case hc2 =>
            rintro ⟨h1 | h1, -⟩
            · cases h1
            · exact hdropstrip (by simpa using h1.2)
        rw [hgo1, hstep]
        right
        rcases wrapTail_result width (g.1 ++ [c.take (longEnd width (sumLen g.1) c)]) with
          ht | ⟨kept, hpop, heq, hkpre, k0, ks, hkk, hkstrip⟩
        · exact ⟨[], by rw [ht]; rfl, 0, [], by simp, Or.inl rfl⟩
        · rcases List.prefix_concat_iff.mp hkpre with hfull | hpart
          · refine ⟨kept.reverse.flatten, by rw [heq], g.1.length,
              c.take (longEnd width (sumLen g.1) c), ?_, Or.inr ⟨c, ?_, hp0, ?_, hlw⟩⟩
            · rw [hfull, List.flatten_append]
              have ht1 : chunks.take g.1.length = g.1 := by
                rw [hchunks_eq]
                exact List.take_left g.1 _
              rw [ht1]
              simp
            · rw [hchunks_eq]
              rw [List.get?_append_right (le_refl g.1.length)]
              simp
            · exact List.take_prefix _ c
          · exact ⟨kept.reverse.flatten, by rw [heq],
              wordPrefixCut_of_prefix width chunks _ (hpart.trans hpre1)⟩
    · -- the next chunk is not longer than the width
      have hla : longAdjust width g.1 g.2 = (g.1, c :: bs) := by
        rw [hg2]
        simp only [longAdjust]
        rw [if_neg hlw]
      have hg1ne : g.1 ≠ [] := by
        intro h0
        have hch : chunks = c :: bs := by
          rw [hchunks_eq, h0]
          rfl
        have hgg : g = greedySplit width 0 (c :: bs) := by rw [hgdef, hch]
        by_cases hfit : 0 + c.length ≤ width
        · simp only [greedySplit] at hgg
          rw [if_pos hfit] at hgg
          rw [hgg] at h0
          simp at h0
        · omega
      have hnotsw : ¬ ((c :: bs : List (List Char)).length = 1 ∧
          pyStripL ((c :: bs).headD []) = []) := by
        rintro ⟨h1, h2⟩
        simp at h1 h2
        have hlastc : chunks.getLast? = some c := by
          rw [hchunks_eq, h1]
          exact List.getLast?_concat _
        exact hlast c hlastc h2
      have hcurne : dropTrailingWsChunk g.1 ≠ [] := by
        intro h0
        rcases dropTrailing_eq_nil g.1 h0 with h1 | ⟨y, hy1, hy2⟩
        · exact hg1ne h1
        · have hymem : y ∈ chunks := by
            rw [hchunks_eq, hy1]
            simp
          obtain ⟨hyne, hyclass⟩ := hok y hymem
          rcases hyclass with hsp | hnws
          · have hcy : chunks = y :: (c :: bs) := by
              rw [hchunks_eq, hy1]
              rfl
            exact hfirst y (c :: bs) hcy hsp
          · rw [strip_of_all_nonws y hnws] at hy2
            exact hyne hy2
      have hcur_pre : dropTrailingWsChunk g.1 <+: chunks := by
        rcases dropTrailingWsChunk_cases g.1 with hdt | hdt
        · rw [hdt]
          exact hpre1
        · rw [hdt]
          exact (List.dropLast_prefix g.1).trans hpre1
      have hcore : wrapCore width chunks = (dropTrailingWsChunk g.1, c :: bs) := by
        simp only [wrapCore, ← hgdef, hla]
      have hstep : wrapStep width [] chunks =
          .inl (wrapTail width [] (dropTrailingWsChunk g.1)) := by
        rw [wrapStep_nil_lines, hcore]
        rw [if_neg (show ¬ ((dropTrailingWsChunk g.1, c :: bs).1 = []) from hcurne)]
        rw [if_neg ?hc3]
        case hc3 =>
          rintro ⟨h1 | h1, -⟩
          · cases h1
          · exact hnotsw h1
      rw [hgo1, hstep]
      right
      rcases wrapTail_result width (dropTrailingWsChunk g.1) with ht | ⟨kept, hpop, heq, hkpre, _⟩
      · exact ⟨[], by rw [ht]; rfl, 0, [], by simp, Or.inl rfl⟩
      · exact ⟨kept.reverse.flatten, by rw [heq],
          wordPrefixCut_of_prefix width chunks _ (hkpre.trans hcur_pre)⟩

theorem munge_id (l : List Char) (h : ∀ a ∈ l, pyIsWs a = true → a = ' ') :
    mungeWs l = l := by
  unfold mungeWs
  conv_rhs => rw [show l = l.map id from (List.map_id l).symm]
  apply List.map_congr_left
  intro a haa
  by_cases hws : asciiWs a
  · rw [if_pos hws]
    exact (h a haa (asciiWs_isWs a hws)).symm
  · rw [if_neg hws]
    rfl

theorem wordsepChunks_ne_nil (c0 : Char) (cs0 : List Char) :
    wordsepChunks (c0 :: cs0) ≠ [] := by
  unfold wordsepChunks
  simp [wsGo]

theorem wordsepChunks_first (c0 : Char) (cs0 : List Char) (hnws : pyIsWs c0 = false) :
    ∀ ch chs, wordsepChunks (c0 :: cs0) = ch :: chs → ch ≠ [' '] := by
  intro ch chs h heq
  unfold wordsepChunks at h
  simp only [wsGo] at h
  have hn1 : 1 ≤ max 1 (wsChunkLen [] (c0 :: cs0)) := le_max_left 1 _
  cases hn : max 1 (wsChunkLen [] (c0 :: cs0)) with
  | zero => omega
  | succ m =>
    rw [hn] at h
    rw [List.take_succ_cons] at h
    have hch : ch = c0 :: cs0.take m := (List.cons_eq_cons.mp h).1.symm
    rw [heq] at hch
    have : c0 = ' ' := (List.cons_eq_cons.mp hch.symm).1
    exact ne_space_of_nonws c0 hnws this

/-- Claim C8: whenever the description budget is positive and the
stripped description exceeds it, the substituted description is the
textwrap.shorten result: it fits in the budget and is either the
whitespace-collapsed description (when collapsing alone makes it fit)
or a word-boundary prefix of it followed by a single appended ellipsis
character, where a word is broken only when it alone exceeds the whole
budget. -/
theorem compose_trunc_word_boundary (n t d u : String)
    (h1 : 0 < availableForDesc n t u)
    (h2 : availableForDesc n t u < ((String.mk (pyStripL d.data)).length : Int)) :
    ∃ s, composeShortDesc n t d u = Except.ok s ∧
      s.length ≤ (availableForDesc n t u).toNat ∧
      (s.data = collapseWs (pyStripL d.data) ∨
        ∃ pre, s.data = pre ++ ['…'] ∧
          WordPrefixCut (availableForDesc n t u).toNat
            (wordsepChunks (collapseWs (pyStripL d.data))) pre) := by
  have hcsd : composeShortDesc n t d u =
      pyShorten (String.mk (pyStripL d.data)) (availableForDesc n t u) := by
    unfold composeShortDesc
    rw [if_pos h1, if_pos h2]
  have hps : pyShorten (String.mk (pyStripL d.data)) (availableForDesc n t u) =
      .ok (String.mk (fillOneLine (availableForDesc n t u).toNat
        (collapseWs (pyStripL d.data)))) := by
    simp only [pyShorten]
    rw [if_neg (by omega), if_neg (by omega)]
  have hwN : 1 ≤ (availableForDesc n t u).toNat := by omega
  -- structure of the collapsed description
  have hdne : pyStripL d.data ≠ [] := by
    intro he
    rw [he] at h2
    simp at h2
    omega
  obtain ⟨c1, cs1, hd1, hnws1⟩ := strip_head_nonws d.data hdne
  have hstrip2 : pyStripL (pyStripL d.data) ≠ [] :=
    strip_ne_nil_of_mem_nonws _ c1 (by rw [hd1]; simp) hnws1
  obtain ⟨c2, cs2, hd2, hnws2⟩ := strip_head_nonws (pyStripL d.data) hstrip2
  have hwords_ne : pySplitL (pyStripL (pyStripL d.data)) ≠ [] :=
    pySplitL_ne_nil _ c2 (by rw [hd2]; simp) hnws2
  have hwordsok : ∀ w ∈ pySplitL (pyStripL (pyStripL d.data)),
      w ≠ [] ∧ ∀ c ∈ w, pyIsWs c = false :=
    fun w hwmem => pySplitL_words _ w hwmem
  obtain ⟨hP1, hP2, hP3, hP4⟩ := collapse_facts _ hwordsok
  obtain ⟨w0, ws0, hws0⟩ :
      ∃ w0 ws0, pySplitL (pyStripL (pyStripL d.data)) = w0 :: ws0 := by
    cases hq : pySplitL (pyStripL (pyStripL d.data)) with
    | nil => exact absurd hq hwords_ne
    | cons a l => exact ⟨a, l, rfl⟩
  obtain ⟨c0, cs0, hc0, hc0nws⟩ := hP3 w0 ws0 hws0
  have hmunge : mungeWs (collapseWs (pyStripL d.data)) = collapseWs (pyStripL d.data) := by
    apply munge_id
    intro a haa hwa
    exact hP1 a haa hwa
  -- the chunk stream of the collapsed description
  have hcoll_eq : collapseWs (pyStripL d.data) = c0 :: cs0 := hc0
  have hchne : wordsepChunks (collapseWs (pyStripL d.data)) ≠ [] := by
    rw [hcoll_eq]
    exact wordsepChunks_ne_nil c0 cs0
  have hflat : (wordsepChunks (collapseWs (pyStripL d.data))).flatten =
      collapseWs (pyStripL d.data) := by
    unfold wordsepChunks
    exact wsGo_flatten _ [] _ (by omega)
  have hchok : ∀ ch ∈ wordsepChunks (collapseWs (pyStripL d.data)),
      ch ≠ [] ∧ (ch = [' '] ∨ ∀ a ∈ ch, pyIsWs a = false) := by
    intro ch hch
    exact wsGo_chunks_ok _ [] _ hP1 hP2 ch hch
  have hchfirst : ∀ c cs, wordsepChunks (collapseWs (pyStripL d.data)) = c :: cs →
      c ≠ [' '] := by
    rw [hcoll_eq]
    exact wordsepChunks_first c0 cs0 hc0nws
  have hchlast : ∀ c, (wordsepChunks (collapseWs (pyStripL d.data))).getLast? = some c →
      pyStripL c ≠ [] := by
    intro c hcl
    obtain ⟨hcne2, hcclass2⟩ := hchok c (mem_of_getLast?_eq_some _ c hcl)
    rcases hcclass2 with hsp | hnws
    · exfalso
      have hfl := flatten_getLast?_eq _ c hcl hcne2
      rw [hflat, hsp] at hfl
      obtain ⟨lch, hlch, hlchnws⟩ := hP4 (by rw [hws0]; simp)
      rw [show List.intercalate [' '] (pySplitL (pyStripL (pyStripL d.data))) =
        collapseWs (pyStripL d.data) from rfl] at hlch
      rw [hfl] at hlch
      simp at hlch
      rw [← hlch, space_isWs] at hlchnws
      cases hlchnws
    · rw [strip_of_all_nonws c hnws]
      exact hcne2
  -- run the wrap
  rcases wrapChunks_structured (availableForDesc n t u).toNat hwN
      (wordsepChunks (collapseWs (pyStripL d.data))) hchne hchok hchfirst hchlast with
    hrun | ⟨pre, hrun, hcut⟩
  · refine ⟨String.mk (fillOneLine (availableForDesc n t u).toNat
      (collapseWs (pyStripL d.data))), by rw [hcsd, hps], ?_, Or.inl ?_⟩
    · exact fillOneLine_length _ hwN _
    · show fillOneLine (availableForDesc n t u).toNat (collapseWs (pyStripL d.data)) =
        collapseWs (pyStripL d.data)
      unfold fillOneLine
      rw [hmunge, hrun]
      simp [List.intercalate, hflat]
  · refine ⟨String.mk (fillOneLine (availableForDesc n t u).toNat
      (collapseWs (pyStripL d.data))), by rw [hcsd, hps], ?_, Or.inr ⟨pre, ?_, hcut⟩⟩
    · exact fillOneLine_length _ hwN _
    · show fillOneLine (availableForDesc n t u).toNat (collapseWs (pyStripL d.data)) =
        pre ++ ['…']
      unfold fillOneLine
      rw [hmunge, hrun]
      simp [List.intercalate]

/-- Witness for compose_trunc_word_boundary at a concrete record: with
empty name, tagline and url the budget is 115 characters, and a
120-character description exceeds it. -/
theorem compose_trunc_word_boundary_witness :
    ∃ s, composeShortDesc "" "" (String.mk (List.replicate 120 'a')) "" = Except.ok s ∧
      s.length ≤ (availableForDesc "" "" "").toNat ∧
      (s.data = collapseWs (pyStripL (String.mk (List.replicate 120 'a')).data) ∨
        ∃ pre, s.data = pre ++ ['…'] ∧
          WordPrefixCut (availableForDesc "" "" "").toNat
            (wordsepChunks (collapseWs (pyStripL (String.mk (List.replicate 120 'a')).data)))
            pre) :=
  compose_trunc_word_boundary "" "" (String.mk (List.replicate 120 'a')) ""
    (by decide) (by decide)
